import Mathlib

/-!
Verification of the dependency broker and worker pool of `rmbrr`
(parallel bottom-up directory-tree deletion).

Directories are modelled as natural-number identifiers.  The Rust
`HashMap`s (`child_counts`, `parent_map`, `tree.children`) are modelled
as association lists with the usual lookup / insert-or-replace / remove
operations; only lookup results and entry counts are observable, which
matches the hash-map interface used by the source.  The crossbeam
channel is modelled by the boolean `work_tx_open` (whether the broker's
sender is still alive) together with the list of directories sent so
far.  The sequential interleaving semantics of worker threads calling
`Broker::mark_complete` is modelled by the step relation `Step`.
-/

namespace Rmbrr

abbrev Dir := Nat

/-- Association-list lookup, first match wins (models `HashMap::get`). -/
def alookup {α : Type} : List (Dir × α) → Dir → Option α
  | [], _ => none
  | (k', v) :: rest, k => if k' = k then some v else alookup rest k

/-- Insert-or-replace (models `HashMap::insert` / `*get_mut(k) = v`). -/
def ainsert {α : Type} : List (Dir × α) → Dir → α → List (Dir × α)
  | [], k, v => [(k, v)]
  | (k', v') :: rest, k, v =>
    if k' = k then (k, v) :: rest else (k', v') :: ainsert rest k v

/-- Remove the entry of a key (models `HashMap::remove`). -/
def aremove {α : Type} : List (Dir × α) → Dir → List (Dir × α)
  | [], _ => []
  | (k', v') :: rest, k => if k' = k then rest else (k', v') :: aremove rest k

/-- `DirectoryTree` from `src/tree.rs`: all directories, the
child-directory map, the initial leaves, plus the file inventory (the
latter two fields are irrelevant to the broker). -/
structure DirectoryTree where
  dirs : List Dir
  files : List Dir
  children : List (Dir × List Dir)
  leaves : List Dir
  file_count : Nat

/-- Broker state, from `src/broker.rs`.  `work_tx_open` models whether
the `Option<Sender>` inside the broker is still `Some`. -/
structure Broker where
  child_counts : List (Dir × Nat)
  parent_map : List (Dir × Dir)
  work_tx_open : Bool
  total_dirs : Nat
  completed : Nat

/-- The `child_counts` map built by the loop in `Broker::new`:
for every `(parent, children)` entry of `tree.children`, insert
`parent -> children.len()`. -/
def buildCounts (children : List (Dir × List Dir)) : List (Dir × Nat) :=
  children.foldl (fun m pc => ainsert m pc.1 pc.2.length) []

/-- The `parent_map` built by the loop in `Broker::new`:
for every `(parent, children)` entry and every `child` in `children`,
insert `child -> parent`.  (The source builds both maps in one pass
over `tree.children`; the two folds are that same pass, split per map,
which is sound because each insertion touches only its own map.) -/
def buildParents (children : List (Dir × List Dir)) : List (Dir × Dir) :=
  children.foldl (fun m pc => pc.2.foldl (fun m' c => ainsert m' c pc.1) m) []

/-- `Broker::new`: build the dependency graph, record the total
directory count, then push every initial leaf into the channel (each
send is guarded by the sender still being alive, as in the source).
Returns the broker together with the list of directories sent. -/
def brokerNew (t : DirectoryTree) : Broker × List Dir :=
  let b : Broker :=
    { child_counts := buildCounts t.children
      parent_map := buildParents t.children
      work_tx_open := true
      total_dirs := t.dirs.length
      completed := 0 }
  (b, t.leaves.foldl (fun acc leaf => if b.work_tx_open then acc ++ [leaf] else acc) [])

/-- `Broker::mark_complete`: increment the completed counter; if it
reached the total, drop the sender (close the channel) and return.
Otherwise look up the parent; if present, decrement its pending count
(`*count -= 1` on a `usize`; the count is strictly positive in every
reachable state, see the C10 theorem, so the truncated `Nat`
subtraction used here agrees with the source); when the count reaches
zero, remove the entry and send the parent if the channel is open.
Returns the new broker state and the list of directories sent. -/
def markComplete (b : Broker) (dir : Dir) : Broker × List Dir :=
  let completed := b.completed + 1
  if completed = b.total_dirs then
    ({ b with completed := completed, work_tx_open := false }, [])
  else
    let b1 : Broker := { b with completed := completed }
    match alookup b.parent_map dir with
    | none => (b1, [])
    | some parent =>
      match alookup b1.child_counts parent with
      | none => (b1, [])
      | some count =>
        if count - 1 = 0 then
          ({ b1 with child_counts := aremove b1.child_counts parent },
           if b1.work_tx_open then [parent] else [])
        else
          ({ b1 with child_counts := ainsert b1.child_counts parent (count - 1) }, [])

/-- `Broker::pending_count`. -/
def Broker.pending_count (b : Broker) : Nat := b.child_counts.length

/-- `Broker::completed_count`. -/
def Broker.completed_count (b : Broker) : Nat := b.completed

/-- `Broker::total_dirs` accessor. -/
def Broker.total_count (b : Broker) : Nat := b.total_dirs

/-- A run of the system: the broker state, the sequence of directories
sent into the work channel so far (in send order), and the sequence of
directories already passed to `mark_complete` (in call order). -/
structure ExecState where
  broker : Broker
  dispatched : List Dir
  done : List Dir

/-- State right after `Broker::new`: leaves dispatched, nothing done. -/
def initExec (t : DirectoryTree) : ExecState :=
  { broker := (brokerNew t).1, dispatched := (brokerNew t).2, done := [] }

/-- Apply one `mark_complete dir` call to a run state. -/
def execMark (s : ExecState) (d : Dir) : ExecState :=
  { broker := (markComplete s.broker d).1
    dispatched := s.dispatched ++ (markComplete s.broker d).2
    done := s.done ++ [d] }

/-- One scheduler step under the worker-pool discipline: some worker
picks a directory that has been dispatched but not yet reported, its
removal succeeds, and it reports `mark_complete`. -/
inductive Step : ExecState → ExecState → Prop where
  | mark (s : ExecState) (d : Dir) (hd : d ∈ s.dispatched) (hnd : d ∉ s.done) :
      Step s (execMark s d)

/-- Reachability from `Broker::new` under the worker discipline. -/
def Reachable (t : DirectoryTree) (s : ExecState) : Prop :=
  Relation.ReflTransGen Step (initExec t) s

/-- One completely unconstrained `mark_complete` call (the caller may
violate the once-per-dispatched-directory precondition). -/
inductive StepAny : ExecState → ExecState → Prop where
  | mark (s : ExecState) (d : Dir) : StepAny s (execMark s d)

/-- Reachability from `Broker::new` under arbitrary call sequences. -/
def ReachableAny (t : DirectoryTree) (s : ExecState) : Prop :=
  Relation.ReflTransGen StepAny (initExec t) s

/-- Concatenation of all child lists of the tree (every directory that
occurs as somebody's child). -/
def allKids : List (Dir × List Dir) → List Dir
  | [] => []
  | pc :: rest => pc.2 ++ allKids rest

/-- The children of `cs` not yet reported complete. -/
def pendList (cs done : List Dir) : List Dir :=
  cs.filter (fun c => decide (c ∉ done))

/-- The intended content of the broker's `child_counts` map after the
completions in `done`: a directory keyed in `children` whose pending
children number `k > 0` maps to `k`; entries at zero are removed. -/
def pendOf (t : DirectoryTree) (done : List Dir) (p : Dir) : Option Nat :=
  match alookup t.children p with
  | none => none
  | some cs =>
    if (pendList cs done).length = 0 then none else some (pendList cs done).length

/-- The section-3 invariants of a `DirectoryTree`, relative to a root
`r` and a depth function witnessing acyclicity: a single-rooted tree
(no cycles, no directory with two parents), `children` keys are exactly
the non-leaves, every child list is nonempty, and everything mentioned
lives in `dirs`. -/
structure WF (t : DirectoryTree) (r : Dir) (depth : Dir → Nat) : Prop where
  dirs_nodup : t.dirs.Nodup
  keys_nodup : (t.children.map Prod.fst).Nodup
  keys_sub : ∀ p cs, (p, cs) ∈ t.children → p ∈ t.dirs
  child_sub : ∀ p cs c, (p, cs) ∈ t.children → c ∈ cs → c ∈ t.dirs
  child_ne : ∀ p cs, (p, cs) ∈ t.children → cs ≠ []
  kids_nodup : (allKids t.children).Nodup
  depth_child : ∀ p cs c, (p, cs) ∈ t.children → c ∈ cs → depth c = depth p + 1
  root_mem : r ∈ t.dirs
  root_no_parent : ∀ p cs, (p, cs) ∈ t.children → r ∉ cs
  parent_ex : ∀ d, d ∈ t.dirs → d ≠ r → ∃ p cs, (p, cs) ∈ t.children ∧ d ∈ cs
  leaves_nodup : t.leaves.Nodup
  leaves_sub : ∀ l, l ∈ t.leaves → l ∈ t.dirs
  leaves_iff : ∀ d, d ∈ t.dirs → (d ∈ t.leaves ↔ alookup t.children d = none)

/-- Strict-ancestor relation in the tree: `Anc t a d` holds when `a` is
the parent of `d` or the parent of some ancestor of `d`. -/
inductive Anc (t : DirectoryTree) : Dir → Dir → Prop where
  | parent (p cs c) : (p, cs) ∈ t.children → c ∈ cs → Anc t p c
  | above (p cs m c) : (p, cs) ∈ t.children → m ∈ cs → Anc t m c → Anc t p c

/-- A directory entry seen by `delete_files_in_dir` while clearing a
directory: whether it is a subdirectory, and whether the
`delete_file_fast` call on it would succeed. -/
structure FsEntry where
  ident : Dir
  isDir : Bool
  deleteOk : Bool

/-- `delete_files_in_dir` from `src/worker.rs`: enumerate the entries
of the directory and delete every non-directory entry; a failed
per-entry deletion is only logged (the closure always returns `Ok`),
so every non-directory entry is attempted regardless of earlier
failures.  Returns the entries on which deletion was attempted and
whether the enumeration itself succeeded (its `io::Result`). -/
def delete_files_in_dir (enumOk : Bool) (entries : List FsEntry) :
    List FsEntry × Bool :=
  if enumOk then (entries.filter (fun e => !e.isDir), true) else ([], false)

/-- Observable actions of one iteration of `worker_thread` on a
received directory. -/
structure IterTrace where
  fileAttempts : List FsEntry
  removalAttempted : Bool
  reported : Bool

/-- One iteration of the `worker_thread` loop from `src/worker.rs` on a
received directory `d`: clear the directory's file contents (a failure
is logged and execution continues), then attempt `remove_dir_fast`; on
failure log a warning and `continue` without notifying the broker; on
success call `broker.mark_complete(d)`. -/
def workerIteration (s : ExecState) (d : Dir) (enumOk : Bool)
    (entries : List FsEntry) (removeOk : Bool) : ExecState × IterTrace :=
  let files := delete_files_in_dir enumOk entries
  if removeOk then
    (execMark s d, { fileAttempts := files.1, removalAttempted := true, reported := true })
  else
    (s, { fileAttempts := files.1, removalAttempted := true, reported := false })

/-- `SafetyCheck` from `src/safety.rs` (the `reason` string is
abstracted away, `can_override` is kept). -/
inductive SafetyCheck where
  | safe : SafetyCheck
  | dangerous (can_override : Bool) : SafetyCheck
  deriving DecidableEq

/-- `check_path_safety` from `src/safety.rs`, as a function of the two
environment facts it consults (`is_system_directory` and
`is_in_current_directory` on the given path): a danger reason exists if
either holds (system directory checked first), and `can_override` is
the negation of `is_system_directory`. -/
def check_path_safety (isSystem inCwd : Bool) : SafetyCheck :=
  if isSystem then SafetyCheck.dangerous false
  else if inCwd then SafetyCheck.dangerous true
  else SafetyCheck.safe

/-- The successive phases of `main` in `src/main.rs`. -/
inductive MainPhase where
  | validateExists
  | validateIsDir
  | safetyGate
  | scanTree
  | createBroker
  | spawnWorkers
  | dropSender
  | joinWorkers
  | report
  | exitEarly
  deriving DecidableEq

/-- The phase sequence executed by `main` (`src/main.rs`), as a
function of the branch conditions it tests: whether the path exists,
whether it is a directory, whether `--dry-run` was given, and whether
`discover_tree` succeeds.  `main` validates existence and
directory-ness, scans the tree, builds the broker, spawns workers,
drops its sender and joins the workers; no call into `safety.rs` ever
occurs. -/
def mainPhases (pathExists pathIsDir dryRun scanOk : Bool) : List MainPhase :=
  if !pathExists then [MainPhase.validateExists, MainPhase.exitEarly]
  else if !pathIsDir then
    [MainPhase.validateExists, MainPhase.validateIsDir, MainPhase.exitEarly]
  else if !scanOk then
    [MainPhase.validateExists, MainPhase.validateIsDir, MainPhase.scanTree,
     MainPhase.exitEarly]
  else if dryRun then
    [MainPhase.validateExists, MainPhase.validateIsDir, MainPhase.scanTree,
     MainPhase.exitEarly]
  else
    [MainPhase.validateExists, MainPhase.validateIsDir, MainPhase.scanTree,
     MainPhase.createBroker, MainPhase.spawnWorkers, MainPhase.dropSender,
     MainPhase.joinWorkers, MainPhase.report]


/-! ### Association-list lemmas -/

theorem alookup_ainsert_self {α : Type} (m : List (Dir × α)) (k : Dir) (v : α) :
    alookup (ainsert m k v) k = some v := by
  induction m with
  | nil => simp [ainsert, alookup]
  | cons hd tl ih =>
    obtain ⟨k', v'⟩ := hd
    by_cases hk : k' = k
    · rw [ainsert, if_pos hk, alookup, if_pos rfl]
    · rw [ainsert, if_neg hk, alookup, if_neg hk]
      exact ih

theorem alookup_ainsert_ne {α : Type} (m : List (Dir × α)) (k q : Dir) (v : α)
    (h : q ≠ k) : alookup (ainsert m k v) q = alookup m q := by
  induction m with
  | nil => simp [ainsert, alookup, Ne.symm h]
  | cons hd tl ih =>
    obtain ⟨k', v'⟩ := hd
    by_cases hk : k' = k
    · subst hk
      rw [ainsert, if_pos rfl, alookup, if_neg (Ne.symm h), alookup, if_neg (Ne.symm h)]
    · rw [ainsert, if_neg hk, alookup, alookup]
      by_cases hq : k' = q
      · rw [if_pos hq, if_pos hq]
      · rw [if_neg hq, if_neg hq, ih]

theorem alookup_aremove_ne {α : Type} (m : List (Dir × α)) (k q : Dir)
    (h : q ≠ k) : alookup (aremove m k) q = alookup m q := by
  induction m with
  | nil => simp [aremove]
  | cons hd tl ih =>
    obtain ⟨k', v'⟩ := hd
    by_cases hk : k' = k
    · subst hk
      rw [aremove, if_pos rfl, alookup, if_neg (Ne.symm h)]
    · rw [aremove, if_neg hk, alookup, alookup]
      by_cases hq : k' = q
      · rw [if_pos hq, if_pos hq]
      · rw [if_neg hq, if_neg hq, ih]

theorem alookup_none_iff {α : Type} (m : List (Dir × α)) (k : Dir) :
    alookup m k = none ↔ k ∉ m.map Prod.fst := by
  induction m with
  | nil => simp [alookup]
  | cons hd tl ih =>
    obtain ⟨k', v'⟩ := hd
    by_cases h : k' = k
    · subst h
      simp [alookup]
    · rw [alookup, if_neg h]
      simp only [List.map_cons, List.mem_cons]
      rw [ih, not_or]
      constructor
      · intro hn
        exact ⟨fun he => h he.symm, hn⟩
      · intro hn
        exact hn.2

theorem alookup_aremove_self {α : Type} (m : List (Dir × α)) (k : Dir)
    (hnd : (m.map Prod.fst).Nodup) : alookup (aremove m k) k = none := by
  induction m with
  | nil => simp [aremove, alookup]
  | cons hd tl ih =>
    obtain ⟨k', v'⟩ := hd
    simp only [List.map_cons, List.nodup_cons] at hnd
    by_cases h : k' = k
    · subst h
      rw [aremove, if_pos rfl, alookup_none_iff]
      exact hnd.1
    · rw [aremove, if_neg h, alookup, if_neg h]
      exact ih hnd.2

theorem mem_of_alookup {α : Type} (m : List (Dir × α)) (k : Dir) (v : α)
    (h : alookup m k = some v) : (k, v) ∈ m := by
  induction m with
  | nil => simp [alookup] at h
  | cons hd tl ih =>
    obtain ⟨k', v'⟩ := hd
    by_cases hk : k' = k
    · rw [alookup, if_pos hk] at h
      injection h with h
      subst hk
      subst h
      exact List.mem_cons_self _ _
    · rw [alookup, if_neg hk] at h
      exact List.mem_cons_of_mem _ (ih h)

theorem alookup_eq_some_of_mem {α : Type} (m : List (Dir × α)) (k : Dir) (v : α)
    (hnd : (m.map Prod.fst).Nodup) (h : (k, v) ∈ m) : alookup m k = some v := by
  induction m with
  | nil => simp at h
  | cons hd tl ih =>
    obtain ⟨k', v'⟩ := hd
    simp only [List.map_cons, List.nodup_cons] at hnd
    rcases List.mem_cons.mp h with h1 | h1
    · injection h1 with h1a h1b
      subst h1a
      subst h1b
      rw [alookup, if_pos rfl]
    · have hk : k' ≠ k := by
        intro he
        exact hnd.1 (he ▸ (List.mem_map.mpr ⟨(k, v), h1, rfl⟩))
      rw [alookup, if_neg hk]
      exact ih hnd.2 h1

theorem keys_ainsert_present {α : Type} (m : List (Dir × α)) (k : Dir) (v w : α)
    (h : alookup m k = some w) : (ainsert m k v).map Prod.fst = m.map Prod.fst := by
  induction m with
  | nil => simp [alookup] at h
  | cons hd tl ih =>
    obtain ⟨k', v'⟩ := hd
    by_cases hk : k' = k
    · subst hk
      rw [ainsert, if_pos rfl]
      simp
    · rw [alookup, if_neg hk] at h
      rw [ainsert, if_neg hk]
      simp only [List.map_cons]
      rw [ih h]

theorem keys_ainsert_fresh {α : Type} (m : List (Dir × α)) (k : Dir) (v : α)
    (h : alookup m k = none) : (ainsert m k v).map Prod.fst = m.map Prod.fst ++ [k] := by
  induction m with
  | nil => simp [ainsert]
  | cons hd tl ih =>
    obtain ⟨k', v'⟩ := hd
    by_cases hk : k' = k
    · rw [alookup, if_pos hk] at h
      simp at h
    · rw [alookup, if_neg hk] at h
      rw [ainsert, if_neg hk]
      simp only [List.map_cons, List.cons_append]
      rw [ih h]

theorem length_ainsert_present {α : Type} (m : List (Dir × α)) (k : Dir) (v w : α)
    (h : alookup m k = some w) : (ainsert m k v).length = m.length := by
  have h1 : ((ainsert m k v).map Prod.fst).length = (m.map Prod.fst).length := by
    rw [keys_ainsert_present m k v w h]
  simpa using h1

theorem keys_aremove_sublist {α : Type} (m : List (Dir × α)) (k : Dir) :
    List.Sublist ((aremove m k).map Prod.fst) (m.map Prod.fst) := by
  induction m with
  | nil => simp [aremove]
  | cons hd tl ih =>
    obtain ⟨k', v'⟩ := hd
    by_cases hk : k' = k
    · rw [aremove, if_pos hk]
      simp only [List.map_cons]
      exact List.Sublist.cons _ (List.Sublist.refl _)
    · rw [aremove, if_neg hk]
      simp only [List.map_cons]
      exact List.Sublist.cons₂ _ ih

theorem mem_ainsert {α : Type} (m : List (Dir × α)) (k : Dir) (v : α) (x : Dir × α)
    (h : x ∈ ainsert m k v) : x = (k, v) ∨ x ∈ m := by
  induction m with
  | nil => simpa [ainsert] using h
  | cons hd tl ih =>
    obtain ⟨k', v'⟩ := hd
    by_cases hk : k' = k
    · rw [ainsert, if_pos hk] at h
      rcases List.mem_cons.mp h with h1 | h1
      · exact Or.inl h1
      · exact Or.inr (List.mem_cons_of_mem _ h1)
    · rw [ainsert, if_neg hk] at h
      rcases List.mem_cons.mp h with h1 | h1
      · exact Or.inr (h1 ▸ List.mem_cons_self _ _)
      · rcases ih h1 with h2 | h2
        · exact Or.inl h2
        · exact Or.inr (List.mem_cons_of_mem _ h2)

theorem mem_aremove {α : Type} (m : List (Dir × α)) (k : Dir) (x : Dir × α)
    (h : x ∈ aremove m k) : x ∈ m := by
  induction m with
  | nil => simp [aremove] at h
  | cons hd tl ih =>
    obtain ⟨k', v'⟩ := hd
    by_cases hk : k' = k
    · rw [aremove, if_pos hk] at h
      exact List.mem_cons_of_mem _ h
    · rw [aremove, if_neg hk] at h
      rcases List.mem_cons.mp h with h1 | h1
      · exact h1 ▸ List.mem_cons_self _ _
      · exact List.mem_cons_of_mem _ (ih h1)

theorem length_aremove_le {α : Type} (m : List (Dir × α)) (k : Dir) :
    (aremove m k).length ≤ m.length := by
  induction m with
  | nil => simp [aremove]
  | cons hd tl ih =>
    obtain ⟨k', v'⟩ := hd
    by_cases hk : k' = k
    · rw [aremove, if_pos hk]
      simp
    · rw [aremove, if_neg hk]
      simpa using ih

/-! ### Characterizing the maps built by `Broker::new` -/

theorem mem_allKids (ch : List (Dir × List Dir)) (c : Dir) :
    c ∈ allKids ch ↔ ∃ p cs, (p, cs) ∈ ch ∧ c ∈ cs := by
  induction ch with
  | nil => simp [allKids]
  | cons pc rest ih =>
    obtain ⟨p', cs'⟩ := pc
    simp only [allKids, List.mem_append, ih, List.mem_cons]
    constructor
    · rintro (h | ⟨p, cs, hmem, hc⟩)
      · exact ⟨p', cs', Or.inl rfl, h⟩
      · exact ⟨p, cs, Or.inr hmem, hc⟩
    · rintro ⟨p, cs, hmem | hmem, hc⟩
      · injection hmem with h1 h2
        subst h1
        subst h2
        exact Or.inl hc
      · exact Or.inr ⟨p, cs, hmem, hc⟩

theorem alookup_buildCountsAux (ch : List (Dir × List Dir)) :
    ∀ (acc : List (Dir × Nat)) (p : Dir),
    (ch.map Prod.fst).Nodup →
    (∀ q, q ∈ ch.map Prod.fst → alookup acc q = none) →
    alookup (ch.foldl (fun m pc => ainsert m pc.1 pc.2.length) acc) p =
      (match alookup ch p with
       | some cs => some cs.length
       | none => alookup acc p) := by
  induction ch with
  | nil => intro acc p _ _; simp [alookup]
  | cons pc rest ih =>
    intro acc p hnd hfresh
    obtain ⟨p', cs'⟩ := pc
    simp only [List.map_cons, List.nodup_cons] at hnd
    rw [List.foldl_cons]
    have hfresh' : ∀ q, q ∈ rest.map Prod.fst → alookup (ainsert acc p' cs'.length) q = none := by
      intro q hq
      have hne : q ≠ p' := fun he => hnd.1 (he ▸ hq)
      rw [alookup_ainsert_ne _ _ _ _ hne]
      exact hfresh q (List.mem_cons_of_mem _ hq)
    rw [ih (ainsert acc p' cs'.length) p hnd.2 hfresh']
    by_cases hp : p' = p
    · subst hp
      have hrest : alookup rest p' = none := (alookup_none_iff _ _).mpr hnd.1
      rw [hrest, alookup, if_pos rfl, alookup_ainsert_self]
    · rw [alookup, if_neg hp]
      cases hr : alookup rest p with
      | some cs => rfl
      | none => exact alookup_ainsert_ne _ _ _ _ (fun he => hp he.symm)

theorem alookup_buildCounts (ch : List (Dir × List Dir)) (p : Dir)
    (hnd : (ch.map Prod.fst).Nodup) :
    alookup (buildCounts ch) p =
      (match alookup ch p with
       | some cs => some cs.length
       | none => none) := by
  rw [buildCounts, alookup_buildCountsAux ch [] p hnd (fun q _ => rfl)]
  cases hr : alookup ch p with
  | some cs => rfl
  | none => rfl

theorem keys_buildCountsAux (ch : List (Dir × List Dir)) :
    ∀ (acc : List (Dir × Nat)),
    (ch.map Prod.fst).Nodup →
    (∀ q, q ∈ ch.map Prod.fst → alookup acc q = none) →
    (ch.foldl (fun m pc => ainsert m pc.1 pc.2.length) acc).map Prod.fst =
      acc.map Prod.fst ++ ch.map Prod.fst := by
  induction ch with
  | nil => intro acc _ _; simp
  | cons pc rest ih =>
    intro acc hnd hfresh
    obtain ⟨p', cs'⟩ := pc
    simp only [List.map_cons, List.nodup_cons] at hnd
    rw [List.foldl_cons]
    have hfresh' : ∀ q, q ∈ rest.map Prod.fst → alookup (ainsert acc p' cs'.length) q = none := by
      intro q hq
      have hne : q ≠ p' := fun he => hnd.1 (he ▸ hq)
      rw [alookup_ainsert_ne _ _ _ _ hne]
      exact hfresh q (List.mem_cons_of_mem _ hq)
    rw [ih (ainsert acc p' cs'.length) hnd.2 hfresh',
        keys_ainsert_fresh _ _ _ (hfresh p' (List.mem_cons_self _ _))]
    simp

theorem keys_buildCounts (ch : List (Dir × List Dir))
    (hnd : (ch.map Prod.fst).Nodup) :
    (buildCounts ch).map Prod.fst = ch.map Prod.fst := by
  rw [buildCounts, keys_buildCountsAux ch [] hnd (fun q _ => rfl)]
  simp

theorem alookup_innerParents (cs : List Dir) (p : Dir) :
    ∀ (m : List (Dir × Dir)) (y : Dir),
    alookup (cs.foldl (fun m' x => ainsert m' x p) m) y =
      if y ∈ cs then some p else alookup m y := by
  induction cs with
  | nil => intro m y; simp
  | cons c rest ih =>
    intro m y
    rw [List.foldl_cons, ih (ainsert m c p) y]
    by_cases hy : y ∈ rest
    · simp [hy, List.mem_cons]
    · by_cases hyc : y = c
      · subst hyc
        simp [hy, alookup_ainsert_self]
      · simp [hy, hyc, alookup_ainsert_ne _ _ _ _ hyc]

theorem alookup_buildParentsAux_notin (ch : List (Dir × List Dir)) :
    ∀ (acc : List (Dir × Dir)) (c : Dir), c ∉ allKids ch →
    alookup (ch.foldl (fun m pc => pc.2.foldl (fun m' x => ainsert m' x pc.1) m) acc) c =
      alookup acc c := by
  induction ch with
  | nil => intro acc c _; rfl
  | cons pc rest ih =>
    intro acc c hc
    simp only [allKids, List.mem_append, not_or] at hc
    rw [List.foldl_cons, ih _ c hc.2, alookup_innerParents, if_neg hc.1]

theorem alookup_buildParentsAux_mem (ch : List (Dir × List Dir)) :
    ∀ (acc : List (Dir × Dir)) (q : Dir) (cs : List Dir) (c : Dir),
    (allKids ch).Nodup → (q, cs) ∈ ch → c ∈ cs →
    alookup (ch.foldl (fun m pc => pc.2.foldl (fun m' x => ainsert m' x pc.1) m) acc) c =
      some q := by
  induction ch with
  | nil => intro acc q cs c _ h _; simp at h
  | cons pc rest ih =>
    intro acc q cs c hnd hmem hc
    obtain ⟨p', cs'⟩ := pc
    have hnd' := hnd
    rw [allKids, List.nodup_append] at hnd'
    rw [List.foldl_cons]
    rcases List.mem_cons.mp hmem with h1 | h1
    · injection h1 with h1a h1b
      subst h1a
      subst h1b
      have hrest : c ∉ allKids rest := fun hk => hnd'.2.2 hc hk
      rw [alookup_buildParentsAux_notin rest _ c hrest, alookup_innerParents, if_pos hc]
    · exact ih _ q cs c hnd'.2.1 h1 hc

theorem alookup_buildParents_some (ch : List (Dir × List Dir)) (q : Dir) (cs : List Dir)
    (c : Dir) (hnd : (allKids ch).Nodup) (hmem : (q, cs) ∈ ch) (hc : c ∈ cs) :
    alookup (buildParents ch) c = some q :=
  alookup_buildParentsAux_mem ch [] q cs c hnd hmem hc

theorem alookup_buildParents_none (ch : List (Dir × List Dir)) (c : Dir)
    (hc : c ∉ allKids ch) : alookup (buildParents ch) c = none :=
  alookup_buildParentsAux_notin ch [] c hc

theorem alookup_buildParents_inv (ch : List (Dir × List Dir)) (q c : Dir)
    (hnd : (allKids ch).Nodup) (h : alookup (buildParents ch) c = some q) :
    ∃ cs, (q, cs) ∈ ch ∧ c ∈ cs := by
  by_cases hc : c ∈ allKids ch
  · obtain ⟨p, cs, hmem, hcs⟩ := (mem_allKids ch c).mp hc
    have := alookup_buildParents_some ch p cs c hnd hmem hcs
    rw [this] at h
    injection h with h
    subst h
    exact ⟨cs, hmem, hcs⟩
  · rw [alookup_buildParents_none ch c hc] at h
    simp at h

theorem foldl_snoc (l : List Dir) : ∀ acc : List Dir,
    l.foldl (fun acc x => acc ++ [x]) acc = acc ++ l := by
  induction l with
  | nil => intro acc; simp
  | cons x rest ih =>
    intro acc
    rw [List.foldl_cons, ih]
    simp

theorem brokerNew_dispatch (t : DirectoryTree) : (brokerNew t).2 = t.leaves := by
  simp [brokerNew, foldl_snoc]

/-! ### Pending-children counting lemmas -/

theorem pendList_append_singleton (cs done : List Dir) (d : Dir) :
    pendList cs (done ++ [d]) = (pendList cs done).filter (fun c => decide (c ≠ d)) := by
  unfold pendList
  rw [List.filter_filter]
  apply List.filter_congr
  intro c _
  by_cases h1 : c = d
  · subst h1
    simp
  · by_cases h2 : c ∈ done
    · simp [h1, h2]
    · simp [h1, h2]

theorem filter_ne_length (l : List Dir) (d : Dir) (hnd : l.Nodup) (hd : d ∈ l) :
    (l.filter (fun c => decide (c ≠ d))).length + 1 = l.length := by
  induction l with
  | nil => simp at hd
  | cons c rest ih =>
    rw [List.nodup_cons] at hnd
    by_cases h : c = d
    · subst h
      have hstep : List.filter (fun x => decide (x ≠ c)) (c :: rest) =
          List.filter (fun x => decide (x ≠ c)) rest := by
        rw [List.filter_cons]
        simp
      have hall : List.filter (fun x => decide (x ≠ c)) rest = rest :=
        List.filter_eq_self.mpr (fun a ha => by
          have hne : a ≠ c := fun he => hnd.1 (he ▸ ha)
          simpa using hne)
      rw [hstep, hall, List.length_cons]
    · have hdr : d ∈ rest := by
        rcases List.mem_cons.mp hd with h1 | h1
        · exact absurd h1.symm h
        · exact h1
      have hstep : List.filter (fun x => decide (x ≠ d)) (c :: rest) =
          c :: List.filter (fun x => decide (x ≠ d)) rest := by
        rw [List.filter_cons]
        simp [h]
      rw [hstep, List.length_cons, List.length_cons]
      rw [← ih hnd.2 hdr]

theorem pendList_nodup (cs done : List Dir) (hnd : cs.Nodup) : (pendList cs done).Nodup :=
  List.Nodup.filter _ hnd

theorem mem_pendList (cs done : List Dir) (d : Dir) :
    d ∈ pendList cs done ↔ d ∈ cs ∧ d ∉ done := by
  simp [pendList]

theorem pendList_unchanged (cs done : List Dir) (d : Dir) (hd : d ∉ cs) :
    pendList cs (done ++ [d]) = pendList cs done := by
  rw [pendList_append_singleton]
  apply List.filter_eq_self.mpr
  intro a ha
  have : a ≠ d := fun he => hd (he ▸ ((mem_pendList cs done a).mp ha).1)
  simp [this]

theorem pendList_decrement (cs done : List Dir) (d : Dir) (hnd : cs.Nodup)
    (hd : d ∈ cs) (hdone : d ∉ done) :
    (pendList cs (done ++ [d])).length + 1 = (pendList cs done).length := by
  rw [pendList_append_singleton]
  exact filter_ne_length (pendList cs done) d (pendList_nodup cs done hnd)
    ((mem_pendList cs done d).mpr ⟨hd, hdone⟩)

theorem pendList_len_zero (cs done : List Dir) :
    (pendList cs done).length = 0 ↔ ∀ c ∈ cs, c ∈ done := by
  rw [List.length_eq_zero]
  unfold pendList
  rw [List.filter_eq_nil_iff]
  constructor
  · intro h c hc
    by_contra hcd
    exact h c hc (by simp [hcd])
  · intro h c hc hdec
    rw [decide_eq_true_eq] at hdec
    exact hdec (h c hc)

theorem pendList_pos (cs done : List Dir) (d : Dir) (hd : d ∈ cs) (hdone : d ∉ done) :
    (pendList cs done).length ≠ 0 := by
  intro h
  exact hdone ((pendList_len_zero cs done).mp h d hd)

theorem pendList_full (cs : List Dir) : pendList cs [] = cs := by
  simp [pendList]

/-! ### Parent uniqueness and cardinality helpers -/

theorem parent_unique (ch : List (Dir × List Dir)) (hk : (allKids ch).Nodup)
    (p1 : Dir) (cs1 : List Dir) (p2 : Dir) (cs2 : List Dir) (d : Dir)
    (h1 : (p1, cs1) ∈ ch) (h2 : (p2, cs2) ∈ ch) (hd1 : d ∈ cs1) (hd2 : d ∈ cs2) :
    p1 = p2 := by
  have hl1 := alookup_buildParents_some ch p1 cs1 d hk h1 hd1
  have hl2 := alookup_buildParents_some ch p2 cs2 d hk h2 hd2
  rw [hl1] at hl2
  exact Option.some.inj hl2

theorem children_fun (ch : List (Dir × List Dir)) (hnd : (ch.map Prod.fst).Nodup)
    (p : Dir) (cs1 cs2 : List Dir) (h1 : (p, cs1) ∈ ch) (h2 : (p, cs2) ∈ ch) :
    cs1 = cs2 := by
  have hl1 := alookup_eq_some_of_mem ch p cs1 hnd h1
  have hl2 := alookup_eq_some_of_mem ch p cs2 hnd h2
  rw [hl1] at hl2
  exact Option.some.inj hl2

theorem nodup_length_le (l S : List Dir) (hl : l.Nodup) (hsub : ∀ x ∈ l, x ∈ S) :
    l.length ≤ S.length := by
  have h1 : l.toFinset.card = l.length := List.toFinset_card_of_nodup hl
  have h2 : l.toFinset ⊆ S.toFinset := by
    intro x hx
    exact List.mem_toFinset.mpr (hsub x (List.mem_toFinset.mp hx))
  have h3 : S.toFinset.card ≤ S.length := by
    rw [List.card_toFinset]
    exact List.Sublist.length_le (List.dedup_sublist S)
  calc l.length = l.toFinset.card := h1.symm
    _ ≤ S.toFinset.card := Finset.card_le_card h2
    _ ≤ S.length := h3

theorem nodup_subset_full (l S : List Dir) (hl : l.Nodup) (hS : S.Nodup)
    (hsub : ∀ x ∈ l, x ∈ S) (hlen : S.length ≤ l.length) : ∀ x ∈ S, x ∈ l := by
  have h1 : l.toFinset ⊆ S.toFinset := by
    intro x hx
    exact List.mem_toFinset.mpr (hsub x (List.mem_toFinset.mp hx))
  have h2 : S.toFinset.card ≤ l.toFinset.card := by
    rw [List.toFinset_card_of_nodup hl, List.toFinset_card_of_nodup hS]
    exact hlen
  have h3 : l.toFinset = S.toFinset := Finset.eq_of_subset_of_card_le h1 h2
  intro x hx
  exact List.mem_toFinset.mp (h3 ▸ List.mem_toFinset.mpr hx)

theorem perm_of_set_eq (l S : List Dir) (hl : l.Nodup) (hS : S.Nodup)
    (h1 : ∀ x ∈ l, x ∈ S) (h2 : ∀ x ∈ S, x ∈ l) : l.Perm S := by
  apply List.perm_of_nodup_nodup_toFinset_eq hl hS
  apply Finset.Subset.antisymm
  · intro x hx
    exact List.mem_toFinset.mpr (h1 x (List.mem_toFinset.mp hx))
  · intro x hx
    exact List.mem_toFinset.mpr (h2 x (List.mem_toFinset.mp hx))

/-! ### Well-formedness consequences and the run invariant -/

theorem nodup_snoc (l : List Dir) (a : Dir) (hl : l.Nodup) (ha : a ∉ l) :
    (l ++ [a]).Nodup := by
  rw [List.nodup_append]
  refine ⟨hl, List.nodup_singleton a, ?_⟩
  intro x hx hxa
  rw [List.mem_singleton] at hxa
  exact ha (hxa ▸ hx)

theorem allKids_chunk_nodup (ch : List (Dir × List Dir)) (p : Dir) (cs : List Dir)
    (hk : (allKids ch).Nodup) (hmem : (p, cs) ∈ ch) : cs.Nodup := by
  induction ch with
  | nil => simp at hmem
  | cons pc rest ih =>
    rw [allKids] at hk
    rcases List.mem_cons.mp hmem with h1 | h1
    · have := List.Nodup.of_append_left hk
      rw [← h1] at this
      exact this
    · exact ih (List.Nodup.of_append_right hk) h1

theorem wf_parent_ne_self (t : DirectoryTree) (r : Dir) (depth : Dir → Nat)
    (wf : WF t r depth) (p : Dir) (cs : List Dir) (d : Dir)
    (hmem : (p, cs) ∈ t.children) (hd : d ∈ cs) : p ≠ d := by
  intro he
  have := wf.depth_child p cs d hmem hd
  rw [he] at this
  omega

theorem wf_n_pos (t : DirectoryTree) (r : Dir) (depth : Dir → Nat)
    (wf : WF t r depth) : 0 < t.dirs.length :=
  List.length_pos.mpr (List.ne_nil_of_mem wf.root_mem)

/-- The inductive invariant relating a reachable run state to the tree:
the dispatched and completed sequences are duplicate-free and live in
`dirs`, the completed counter counts completions, the channel is open
exactly while completions are outstanding, a directory is dispatched
exactly when all its children (if any) are completed, and the
`child_counts` map holds exactly the positive pending counts. -/
structure Inv (t : DirectoryTree) (s : ExecState) : Prop where
  disp_nodup : s.dispatched.Nodup
  disp_sub : ∀ d, d ∈ s.dispatched → d ∈ t.dirs
  done_nodup : s.done.Nodup
  done_sub : ∀ d, d ∈ s.done → d ∈ s.dispatched
  completed_eq : s.broker.completed = s.done.length
  total_eq : s.broker.total_dirs = t.dirs.length
  pmap_eq : s.broker.parent_map = buildParents t.children
  open_eq : s.broker.work_tx_open = true ↔ s.done.length < t.dirs.length
  disp_iff : ∀ d, d ∈ t.dirs →
    (d ∈ s.dispatched ↔ ∀ cs, alookup t.children d = some cs → ∀ c ∈ cs, c ∈ s.done)
  counts_eq : ∀ p, alookup s.broker.child_counts p = pendOf t s.done p
  counts_keys_nodup : (s.broker.child_counts.map Prod.fst).Nodup

theorem inv_init (t : DirectoryTree) (r : Dir) (depth : Dir → Nat)
    (wf : WF t r depth) : Inv t (initExec t) := by
  have hb : (initExec t).broker = (brokerNew t).1 := rfl
  have hbfields : (brokerNew t).1 =
      { child_counts := buildCounts t.children
        parent_map := buildParents t.children
        work_tx_open := true
        total_dirs := t.dirs.length
        completed := 0 } := rfl
  have hdisp : (initExec t).dispatched = t.leaves := brokerNew_dispatch t
  have hdone : (initExec t).done = [] := rfl
  refine ⟨?_, ?_, ?_, ?_, ?_, ?_, ?_, ?_, ?_, ?_, ?_⟩
  · rw [hdisp]
    exact wf.leaves_nodup
  · rw [hdisp]
    exact wf.leaves_sub
  · rw [hdone]
    exact List.nodup_nil
  · rw [hdone]
    intro d hd
    simp at hd
  · rw [hb, hbfields, hdone]
    rfl
  · rw [hb, hbfields]
  · rw [hb, hbfields]
  · rw [hb, hbfields, hdone]
    simpa using wf_n_pos t r depth wf
  · intro d hdS
    rw [hdisp, hdone]
    constructor
    · intro hL cs hcs
      rw [(wf.leaves_iff d hdS).mp hL] at hcs
      exact Option.noConfusion hcs
    · intro h
      apply (wf.leaves_iff d hdS).mpr
      cases hc : alookup t.children d with
      | none => rfl
      | some cs =>
        have hne := wf.child_ne d cs (mem_of_alookup _ _ _ hc)
        have hnil : cs = [] := by
          rcases cs with _ | ⟨c, cs'⟩
          · rfl
          · exact absurd (h _ hc c (List.mem_cons_self _ _)) (by simp)
        exact absurd hnil hne
  · intro p
    rw [hb, hbfields, hdone]
    show alookup (buildCounts t.children) p = pendOf t [] p
    rw [alookup_buildCounts t.children p wf.keys_nodup]
    unfold pendOf
    cases hc : alookup t.children p with
    | none => rfl
    | some cs =>
      have hne := wf.child_ne p cs (mem_of_alookup _ _ _ hc)
      show some cs.length =
        if (pendList cs []).length = 0 then none else some (pendList cs []).length
      rw [pendList_full]
      rw [if_neg (fun h => hne (List.length_eq_zero.mp h))]
  · rw [hb, hbfields]
    show ((buildCounts t.children).map Prod.fst).Nodup
    rw [keys_buildCounts t.children wf.keys_nodup]
    exact wf.keys_nodup

theorem pendOf_none_key (t : DirectoryTree) (done : List Dir) (p : Dir)
    (h : alookup t.children p = none) : pendOf t done p = none := by
  unfold pendOf
  rw [h]

theorem pendOf_some_key (t : DirectoryTree) (done : List Dir) (p : Dir) (cs : List Dir)
    (h : alookup t.children p = some cs) :
    pendOf t done p =
      if (pendList cs done).length = 0 then none else some (pendList cs done).length := by
  unfold pendOf
  rw [h]

theorem inv_step (t : DirectoryTree) (r : Dir) (depth : Dir → Nat) (wf : WF t r depth)
    (s s' : ExecState) (hinv : Inv t s) (hstep : Step s s') : Inv t s' := by
  cases hstep with
  | mark d hd hnd =>
    have hdS : d ∈ t.dirs := hinv.disp_sub d hd
    have hdone_sub_dirs : ∀ x, x ∈ s.done → x ∈ t.dirs :=
      fun x hx => hinv.disp_sub x (hinv.done_sub x hx)
    have hdone'_nodup : (s.done ++ [d]).Nodup := nodup_snoc s.done d hinv.done_nodup hnd
    have hdone'_sub : ∀ x, x ∈ s.done ++ [d] → x ∈ t.dirs := by
      intro x hx
      rcases List.mem_append.mp hx with h | h
      · exact hdone_sub_dirs x h
      · rw [List.mem_singleton] at h
        exact h ▸ hdS
    have hlen' : (s.done ++ [d]).length ≤ t.dirs.length :=
      nodup_length_le _ _ hdone'_nodup hdone'_sub
    have hlen'' : s.done.length + 1 ≤ t.dirs.length := by
      simpa using hlen'
    have hcomp := hinv.completed_eq
    have htot := hinv.total_eq
    by_cases heq : s.done.length + 1 = t.dirs.length
    · -- this completion is the last one: the channel closes
      have hcond : s.broker.completed + 1 = s.broker.total_dirs := by omega
      have hmc : markComplete s.broker d =
          ({ s.broker with completed := s.broker.completed + 1, work_tx_open := false },
           []) := by
        simp only [markComplete]
        rw [if_pos hcond]
      have hfull : ∀ x ∈ t.dirs, x ∈ s.done ++ [d] :=
        nodup_subset_full _ _ hdone'_nodup wf.dirs_nodup hdone'_sub
          (by simp only [List.length_append, List.length_singleton]; omega)
      have hdr : d = r := by
        by_contra hne2
        obtain ⟨p0, cs0, hmem, hdc⟩ := wf.parent_ex d hdS hne2
        have hp0d : p0 ≠ d := wf_parent_ne_self t r depth wf p0 cs0 d hmem hdc
        have hp0S : p0 ∈ t.dirs := wf.keys_sub p0 cs0 hmem
        have hp0done : p0 ∈ s.done := by
          rcases List.mem_append.mp (hfull p0 hp0S) with h | h
          · exact h
          · rw [List.mem_singleton] at h
            exact absurd h hp0d
        have hp0disp : p0 ∈ s.dispatched := hinv.done_sub p0 hp0done
        exact hnd ((hinv.disp_iff p0 hp0S).mp hp0disp cs0
          (alookup_eq_some_of_mem _ _ _ wf.keys_nodup hmem) d hdc)
      have hcs_done : ∀ p cs c, (p, cs) ∈ t.children → c ∈ cs → c ∈ s.done := by
        intro p cs c hmem hc
        have hcS : c ∈ t.dirs := wf.child_sub p cs c hmem hc
        have hcr : c ≠ r := fun he => wf.root_no_parent p cs hmem (he ▸ hc)
        rcases List.mem_append.mp (hfull c hcS) with h | h
        · exact h
        · rw [List.mem_singleton] at h
          exact absurd (h.trans hdr) hcr
      have hs' : execMark s d =
          { broker := { s.broker with
              completed := s.broker.completed + 1
              work_tx_open := false },
            dispatched := s.dispatched,
            done := s.done ++ [d] } := by
        simp [execMark, hmc]
      rw [hs']
      refine ⟨hinv.disp_nodup, hinv.disp_sub, hdone'_nodup, ?_, ?_, htot, hinv.pmap_eq,
        ?_, ?_, ?_, hinv.counts_keys_nodup⟩
      · intro x hx
        rcases List.mem_append.mp hx with h | h
        · exact hinv.done_sub x h
        · rw [List.mem_singleton] at h
          exact h ▸ hd
      · simp [hcomp]
      · constructor
        · intro hfalse
          simp at hfalse
        · intro hlt2
          exfalso
          simp only [List.length_append, List.length_singleton] at hlt2
          omega
      · intro x hxS
        constructor
        · intro _ cs hcs c hc
          exact List.mem_append.mpr
            (Or.inl (hcs_done x cs c (mem_of_alookup _ _ _ hcs) hc))
        · intro _
          rcases List.mem_append.mp (hfull x hxS) with h | h
          · exact hinv.done_sub x h
          · rw [List.mem_singleton] at h
            exact h ▸ hd
      · intro p
        show alookup s.broker.child_counts p = pendOf t (s.done ++ [d]) p
        rw [hinv.counts_eq p]
        cases hc : alookup t.children p with
        | none => rw [pendOf_none_key t s.done p hc, pendOf_none_key t (s.done ++ [d]) p hc]
        | some cs =>
          have hsub1 : ∀ c ∈ cs, c ∈ s.done := fun c hc2 =>
            hcs_done p cs c (mem_of_alookup _ _ _ hc) hc2
          have hsub2 : ∀ c ∈ cs, c ∈ s.done ++ [d] := fun c hc2 =>
            List.mem_append.mpr (Or.inl (hsub1 c hc2))
          rw [pendOf_some_key t s.done p cs hc, pendOf_some_key t (s.done ++ [d]) p cs hc,
              if_pos ((pendList_len_zero cs s.done).mpr hsub1),
              if_pos ((pendList_len_zero cs (s.done ++ [d])).mpr hsub2)]
    · -- not the last completion: the channel stays open
      have hcond : ¬ (s.broker.completed + 1 = s.broker.total_dirs) := by omega
      have hlt : s.done.length < t.dirs.length := by omega
      have hopen : s.broker.work_tx_open = true := hinv.open_eq.mpr hlt
      have hlt' : s.done.length + 1 < t.dirs.length := by omega
      cases hp : alookup s.broker.parent_map d with
      | none =>
        -- the completed directory is the root
        have hdr : d = r := by
          by_contra hne2
          obtain ⟨p0, cs0, hmem, hdc⟩ := wf.parent_ex d hdS hne2
          have : alookup s.broker.parent_map d = some p0 := by
            rw [hinv.pmap_eq]
            exact alookup_buildParents_some t.children p0 cs0 d wf.kids_nodup hmem hdc
          rw [hp] at this
          exact Option.noConfusion this
        have hmc : markComplete s.broker d =
            ({ s.broker with completed := s.broker.completed + 1 }, []) := by
          simp [markComplete, hcond, hp]
        have hs' : execMark s d =
            { broker := { s.broker with completed := s.broker.completed + 1 },
              dispatched := s.dispatched,
              done := s.done ++ [d] } := by
          simp [execMark, hmc]
        rw [hs']
        refine ⟨hinv.disp_nodup, hinv.disp_sub, hdone'_nodup, ?_, ?_, htot, hinv.pmap_eq,
          ?_, ?_, ?_, hinv.counts_keys_nodup⟩
        · intro x hx
          rcases List.mem_append.mp hx with h | h
          · exact hinv.done_sub x h
          · rw [List.mem_singleton] at h
            exact h ▸ hd
        · simp [hcomp]
        · show s.broker.work_tx_open = true ↔ (s.done ++ [d]).length < t.dirs.length
          rw [hopen]
          simp only [List.length_append, List.length_singleton]
          constructor
          · intro _
            omega
          · intro _
            trivial
        · intro x hxS
          constructor
          · intro hxdisp cs hcs c hc
            exact List.mem_append.mpr
              (Or.inl ((hinv.disp_iff x hxS).mp hxdisp cs hcs c hc))
          · intro h
            apply (hinv.disp_iff x hxS).mpr
            intro cs hcs c hc
            rcases List.mem_append.mp (h cs hcs c hc) with h1 | h1
            · exact h1
            · rw [List.mem_singleton] at h1
              have hcr : c ≠ r := fun he =>
                wf.root_no_parent x cs (mem_of_alookup _ _ _ hcs) (he ▸ hc)
              exact absurd (h1.trans hdr) hcr
        · intro p
          show alookup s.broker.child_counts p = pendOf t (s.done ++ [d]) p
          rw [hinv.counts_eq p]
          cases hc : alookup t.children p with
          | none => rw [pendOf_none_key t s.done p hc, pendOf_none_key t (s.done ++ [d]) p hc]
          | some cs =>
            have hdn : d ∉ cs := fun hdc =>
              wf.root_no_parent p cs (mem_of_alookup _ _ _ hc) (hdr ▸ hdc)
            rw [pendOf_some_key t s.done p cs hc, pendOf_some_key t (s.done ++ [d]) p cs hc,
                pendList_unchanged cs s.done d hdn]
      | some p0 =>
        have hex : ∃ cs0, (p0, cs0) ∈ t.children ∧ d ∈ cs0 := by
          rw [hinv.pmap_eq] at hp
          exact alookup_buildParents_inv t.children p0 d wf.kids_nodup hp
        obtain ⟨cs0, hmem0, hdc0⟩ := hex
        have hlook0 : alookup t.children p0 = some cs0 :=
          alookup_eq_some_of_mem _ _ _ wf.keys_nodup hmem0
        have hcs0_nodup : cs0.Nodup := allKids_chunk_nodup t.children p0 cs0 wf.kids_nodup hmem0
        have hkpos : (pendList cs0 s.done).length ≠ 0 := pendList_pos cs0 s.done d hdc0 hnd
        have hk : alookup s.broker.child_counts p0 = some (pendList cs0 s.done).length := by
          rw [hinv.counts_eq p0, pendOf_some_key t s.done p0 cs0 hlook0, if_neg hkpos]
        have hdec : (pendList cs0 (s.done ++ [d])).length + 1 = (pendList cs0 s.done).length :=
          pendList_decrement cs0 s.done d hcs0_nodup hdc0 hnd
        have hp0S : p0 ∈ t.dirs := wf.keys_sub p0 cs0 hmem0
        have hp0nd : p0 ∉ s.dispatched := fun hmem =>
          hnd ((hinv.disp_iff p0 hp0S).mp hmem cs0 hlook0 d hdc0)
        have hd_notin : ∀ p cs, (p, cs) ∈ t.children → p ≠ p0 → d ∉ cs :=
          fun p cs hmem hne2 hdc =>
            hne2 (parent_unique t.children wf.kids_nodup p cs p0 cs0 d hmem hmem0 hdc hdc0)
        by_cases hz : (pendList cs0 s.done).length - 1 = 0
        · -- last pending child of the parent: the parent is dispatched
          have hmc : markComplete s.broker d =
              ({ s.broker with
                  completed := s.broker.completed + 1
                  child_counts := aremove s.broker.child_counts p0 },
               [p0]) := by
            simp [markComplete, hcond, hp, hk, hz, hopen]
          have hs' : execMark s d =
              { broker := { s.broker with
                  completed := s.broker.completed + 1
                  child_counts := aremove s.broker.child_counts p0 },
                dispatched := s.dispatched ++ [p0],
                done := s.done ++ [d] } := by
            simp [execMark, hmc]
          rw [hs']
          have hcz : (pendList cs0 (s.done ++ [d])).length = 0 := by omega
          have hall' : ∀ c ∈ cs0, c ∈ s.done ++ [d] := (pendList_len_zero _ _).mp hcz
          refine ⟨?_, ?_, hdone'_nodup, ?_, ?_, htot, hinv.pmap_eq, ?_, ?_, ?_, ?_⟩
          · exact nodup_snoc _ _ hinv.disp_nodup hp0nd
          · intro x hx
            rcases List.mem_append.mp hx with h | h
            · exact hinv.disp_sub x h
            · rw [List.mem_singleton] at h
              exact h ▸ hp0S
          · intro x hx
            rcases List.mem_append.mp hx with h | h
            · exact List.mem_append.mpr (Or.inl (hinv.done_sub x h))
            · rw [List.mem_singleton] at h
              exact List.mem_append.mpr (Or.inl (h ▸ hd))
          · simp [hcomp]
          · show s.broker.work_tx_open = true ↔ (s.done ++ [d]).length < t.dirs.length
            rw [hopen]
            simp only [List.length_append, List.length_singleton]
            constructor
            · intro _
              omega
            · intro _
              trivial
          · intro x hxS
            by_cases hxp : x = p0
            · subst hxp
              constructor
              · intro _ cs hcs c hc
                rw [hlook0] at hcs
                injection hcs with hcs
                subst hcs
                exact hall' c hc
              · intro _
                exact List.mem_append.mpr (Or.inr (List.mem_singleton.mpr rfl))
            · constructor
              · intro hxdisp cs hcs c hc
                rcases List.mem_append.mp hxdisp with h1 | h1
                · exact List.mem_append.mpr
                    (Or.inl ((hinv.disp_iff x hxS).mp h1 cs hcs c hc))
                · rw [List.mem_singleton] at h1
                  exact absurd h1 hxp
              · intro h
                apply List.mem_append.mpr
                apply Or.inl
                apply (hinv.disp_iff x hxS).mpr
                intro cs hcs c hc
                rcases List.mem_append.mp (h cs hcs c hc) with h1 | h1
                · exact h1
                · rw [List.mem_singleton] at h1
                  subst h1
                  exact absurd hc (hd_notin x cs (mem_of_alookup _ _ _ hcs) hxp)
          · intro p
            show alookup (aremove s.broker.child_counts p0) p = pendOf t (s.done ++ [d]) p
            by_cases hpp : p = p0
            · subst hpp
              rw [alookup_aremove_self _ _ hinv.counts_keys_nodup,
                  pendOf_some_key t (s.done ++ [d]) p cs0 hlook0,
                  if_pos ((pendList_len_zero cs0 (s.done ++ [d])).mpr hall')]
            · rw [alookup_aremove_ne _ _ _ hpp, hinv.counts_eq p]
              cases hc : alookup t.children p with
              | none =>
                rw [pendOf_none_key t s.done p hc, pendOf_none_key t (s.done ++ [d]) p hc]
              | some cs =>
                have hdn : d ∉ cs := hd_notin p cs (mem_of_alookup _ _ _ hc) hpp
                rw [pendOf_some_key t s.done p cs hc, pendOf_some_key t (s.done ++ [d]) p cs hc,
                    pendList_unchanged cs s.done d hdn]
          · exact List.Nodup.sublist (keys_aremove_sublist _ _) hinv.counts_keys_nodup
        · -- other pending children remain: only the count decreases
          have hmc : markComplete s.broker d =
              ({ s.broker with
                  completed := s.broker.completed + 1
                  child_counts :=
                    ainsert s.broker.child_counts p0 ((pendList cs0 s.done).length - 1) },
               []) := by
            simp [markComplete, hcond, hp, hk, hz]
          have hs' : execMark s d =
              { broker := { s.broker with
                  completed := s.broker.completed + 1
                  child_counts :=
                    ainsert s.broker.child_counts p0
                      ((pendList cs0 s.done).length - 1) },
                dispatched := s.dispatched,
                done := s.done ++ [d] } := by
            simp [execMark, hmc]
          rw [hs']
          have hcz : (pendList cs0 (s.done ++ [d])).length ≠ 0 := by omega
          refine ⟨hinv.disp_nodup, hinv.disp_sub, hdone'_nodup, ?_, ?_, htot, hinv.pmap_eq,
            ?_, ?_, ?_, ?_⟩
          · intro x hx
            rcases List.mem_append.mp hx with h | h
            · exact hinv.done_sub x h
            · rw [List.mem_singleton] at h
              exact h ▸ hd
          · simp [hcomp]
          · show s.broker.work_tx_open = true ↔ (s.done ++ [d]).length < t.dirs.length
            rw [hopen]
            simp only [List.length_append, List.length_singleton]
            constructor
            · intro _
              omega
            · intro _
              trivial
          · intro x hxS
            by_cases hxp : x = p0
            · subst hxp
              constructor
              · intro hxdisp
                exact absurd hxdisp hp0nd
              · intro h
                exfalso
                exact hcz ((pendList_len_zero _ _).mpr (h cs0 hlook0))
            · constructor
              · intro hxdisp cs hcs c hc
                exact List.mem_append.mpr
                  (Or.inl ((hinv.disp_iff x hxS).mp hxdisp cs hcs c hc))
              · intro h
                apply (hinv.disp_iff x hxS).mpr
                intro cs hcs c hc
                rcases List.mem_append.mp (h cs hcs c hc) with h1 | h1
                · exact h1
                · rw [List.mem_singleton] at h1
                  subst h1
                  exact absurd hc (hd_notin x cs (mem_of_alookup _ _ _ hcs) hxp)
          · intro p
            show alookup (ainsert s.broker.child_counts p0 ((pendList cs0 s.done).length - 1)) p =
              pendOf t (s.done ++ [d]) p
            by_cases hpp : p = p0
            · subst hpp
              rw [alookup_ainsert_self, pendOf_some_key t (s.done ++ [d]) p cs0 hlook0,
                  if_neg hcz]
              exact congrArg some (by omega)
            · rw [alookup_ainsert_ne _ _ _ _ hpp, hinv.counts_eq p]
              cases hc : alookup t.children p with
              | none =>
                rw [pendOf_none_key t s.done p hc, pendOf_none_key t (s.done ++ [d]) p hc]
              | some cs =>
                have hdn : d ∉ cs := hd_notin p cs (mem_of_alookup _ _ _ hc) hpp
                rw [pendOf_some_key t s.done p cs hc, pendOf_some_key t (s.done ++ [d]) p cs hc,
                    pendList_unchanged cs s.done d hdn]
          · show ((ainsert s.broker.child_counts p0
                ((pendList cs0 s.done).length - 1)).map Prod.fst).Nodup
            rw [keys_ainsert_present _ _ _ _ hk]
            exact hinv.counts_keys_nodup

theorem inv_reachable (t : DirectoryTree) (r : Dir) (depth : Dir → Nat)
    (wf : WF t r depth) (s : ExecState) (h : Reachable t s) : Inv t s := by
  induction h with
  | refl => exact inv_init t r depth wf
  | tail _ hbc ih => exact inv_step t r depth wf _ _ ih hbc

theorem le_foldr_max (l : List Nat) (x : Nat) (hx : x ∈ l) : x ≤ l.foldr max 0 := by
  induction l with
  | nil => simp at hx
  | cons hd tl ih =>
    rw [List.foldr_cons]
    rcases List.mem_cons.mp hx with h | h
    · exact h ▸ le_max_left _ _
    · exact le_trans (ih h) (le_max_right _ _)

/-- Upper bound on the depth function over the directory set. -/
def maxDepth (t : DirectoryTree) (depth : Dir → Nat) : Nat :=
  (t.dirs.map depth).foldr max 0

theorem depth_le_maxDepth (t : DirectoryTree) (depth : Dir → Nat) (x : Dir)
    (hx : x ∈ t.dirs) : depth x ≤ maxDepth t depth :=
  le_foldr_max _ _ (List.mem_map.mpr ⟨x, hx, rfl⟩)

theorem terminal_all_dispatched (t : DirectoryTree) (r : Dir) (depth : Dir → Nat)
    (wf : WF t r depth) (s : ExecState) (hinv : Inv t s)
    (hterm : ∀ x ∈ s.dispatched, x ∈ s.done) : ∀ x ∈ t.dirs, x ∈ s.dispatched := by
  have key : ∀ k x, x ∈ t.dirs → maxDepth t depth + 1 - depth x ≤ k → x ∈ s.dispatched := by
    intro k
    induction k with
    | zero =>
      intro x hxS hk
      have hle := depth_le_maxDepth t depth x hxS
      omega
    | succ k ih =>
      intro x hxS hk
      by_contra hxnd
      have hnot : ¬ (∀ cs, alookup t.children x = some cs → ∀ c ∈ cs, c ∈ s.done) :=
        fun h => hxnd ((hinv.disp_iff x hxS).mpr h)
      push_neg at hnot
      obtain ⟨cs, hcs, c, hc, hcnd⟩ := hnot
      have hcS : c ∈ t.dirs := wf.child_sub x cs c (mem_of_alookup _ _ _ hcs) hc
      have hcd : depth c = depth x + 1 := wf.depth_child x cs c (mem_of_alookup _ _ _ hcs) hc
      have hcd2 : c ∈ s.dispatched := ih c hcS (by omega)
      exact hcnd (hterm c hcd2)
  intro x hxS
  exact key (maxDepth t depth + 1) x hxS (by omega)

theorem markComplete_completed (b : Broker) (d : Dir) :
    (markComplete b d).1.completed = b.completed + 1 := by
  by_cases h : b.completed + 1 = b.total_dirs
  · simp [markComplete, h]
  · cases hp : alookup b.parent_map d with
    | none => simp [markComplete, h, hp]
    | some p =>
      cases hk : alookup b.child_counts p with
      | none => simp [markComplete, h, hp, hk]
      | some k =>
        by_cases hz : k - 1 = 0
        · simp [markComplete, h, hp, hk, hz]
        · simp [markComplete, h, hp, hk, hz]

theorem markComplete_pending_le (b : Broker) (d : Dir) :
    (markComplete b d).1.pending_count ≤ b.pending_count := by
  by_cases h : b.completed + 1 = b.total_dirs
  · simp [markComplete, h, Broker.pending_count]
  · cases hp : alookup b.parent_map d with
    | none => simp [markComplete, h, hp, Broker.pending_count]
    | some p =>
      cases hk : alookup b.child_counts p with
      | none => simp [markComplete, h, hp, hk, Broker.pending_count]
      | some k =>
        by_cases hz : k - 1 = 0
        · simp only [markComplete, h, hp, hk, hz, Broker.pending_count]
          simp
          exact length_aremove_le _ _
        · simp only [markComplete, h, hp, hk, hz, Broker.pending_count]
          simp [hz]
          exact le_of_eq (length_ainsert_present _ _ _ _ hk)

theorem markComplete_vals_pos (b : Broker) (d : Dir)
    (h : ∀ pk ∈ b.child_counts, 1 ≤ pk.2) :
    ∀ pk ∈ (markComplete b d).1.child_counts, 1 ≤ pk.2 := by
  by_cases hc : b.completed + 1 = b.total_dirs
  · simpa [markComplete, hc] using h
  · cases hp : alookup b.parent_map d with
    | none => simpa [markComplete, hc, hp] using h
    | some p =>
      cases hk : alookup b.child_counts p with
      | none => simpa [markComplete, hc, hp, hk] using h
      | some k =>
        by_cases hz : k - 1 = 0
        · simp only [markComplete, hc, hp, hk, hz]
          intro pk hpk
          simp at hpk
          exact h pk (mem_aremove _ _ _ hpk)
        · simp only [markComplete, hc, hp, hk, hz]
          intro pk hpk
          simp [hz] at hpk
          rcases mem_ainsert _ _ _ _ hpk with h1 | h1
          · rw [h1]
            omega
          · exact h pk h1

theorem eq_nil_of_alookup_none {α : Type} (m : List (Dir × α))
    (h : ∀ p, alookup m p = none) : m = [] := by
  cases m with
  | nil => rfl
  | cons hd tl =>
    obtain ⟨k, v⟩ := hd
    have hk := h k
    rw [alookup, if_pos rfl] at hk
    exact Option.noConfusion hk

theorem wf_count_partition (t : DirectoryTree) (r : Dir) (depth : Dir → Nat)
    (wf : WF t r depth) : t.dirs.length = t.children.length + t.leaves.length := by
  have hsets : t.dirs.toFinset = (t.children.map Prod.fst).toFinset ∪ t.leaves.toFinset := by
    ext x
    simp only [Finset.mem_union, List.mem_toFinset]
    constructor
    · intro hx
      by_cases hkey : x ∈ t.children.map Prod.fst
      · exact Or.inl hkey
      · right
        apply (wf.leaves_iff x hx).mpr
        rw [alookup_none_iff]
        exact hkey
    · intro hx
      rcases hx with hx | hx
      · obtain ⟨pc, hpc, he⟩ := List.mem_map.mp hx
        exact he ▸ wf.keys_sub pc.1 pc.2 hpc
      · exact wf.leaves_sub x hx
  have hdisj : Disjoint ((t.children.map Prod.fst).toFinset) (t.leaves.toFinset) := by
    rw [Finset.disjoint_left]
    intro x hx hlx
    obtain ⟨pc, hpc, he⟩ := List.mem_toFinset.mp hx |> List.mem_map.mp
    have hxS : x ∈ t.dirs := he ▸ wf.keys_sub pc.1 pc.2 hpc
    have hnone := (wf.leaves_iff x hxS).mp (List.mem_toFinset.mp hlx)
    rw [alookup_none_iff] at hnone
    exact hnone (List.mem_toFinset.mp hx)
  have hcard := congrArg Finset.card hsets
  rw [Finset.card_union_of_disjoint hdisj, List.toFinset_card_of_nodup wf.dirs_nodup,
      List.toFinset_card_of_nodup wf.keys_nodup,
      List.toFinset_card_of_nodup wf.leaves_nodup] at hcard
  simpa using hcard

theorem anc_stalled (t : DirectoryTree) (r : Dir) (depth : Dir → Nat) (wf : WF t r depth)
    (s : ExecState) (hinv : Inv t s) :
    ∀ a c, Anc t a c → c ∉ s.done → a ∉ s.dispatched ∧ a ∉ s.done := by
  intro a c hanc
  induction hanc with
  | parent p cs c2 hmem hc =>
    intro hcnd
    have hpS : p ∈ t.dirs := wf.keys_sub p cs hmem
    have hpd : p ∉ s.dispatched := fun hpdisp =>
      hcnd ((hinv.disp_iff p hpS).mp hpdisp cs
        (alookup_eq_some_of_mem _ _ _ wf.keys_nodup hmem) c2 hc)
    exact ⟨hpd, fun hpdone => hpd (hinv.done_sub p hpdone)⟩
  | above p cs m c2 hmem hm _ ih =>
    intro hcnd
    have hmnd : m ∉ s.done := (ih hcnd).2
    have hpS : p ∈ t.dirs := wf.keys_sub p cs hmem
    have hpd : p ∉ s.dispatched := fun hpdisp =>
      hmnd ((hinv.disp_iff p hpS).mp hpdisp cs
        (alookup_eq_some_of_mem _ _ _ wf.keys_nodup hmem) m hm)
    exact ⟨hpd, fun hpdone => hpd (hinv.done_sub p hpdone)⟩

/-! ### Concrete trees for witness runs -/

/-- Scenario D of the spec: a single directory, no children. -/
def t0 : DirectoryTree :=
  { dirs := [0], files := [], children := [], leaves := [0], file_count := 0 }

/-- A two-directory tree: root `0` with single leaf child `1`. -/
def t1 : DirectoryTree :=
  { dirs := [0, 1], files := [], children := [(0, [1])], leaves := [1], file_count := 0 }

theorem wf_t0 : WF t0 0 (fun _ => 0) := by
  constructor <;> simp [t0, allKids, alookup]

theorem wf_t1 : WF t1 0 (fun x => x) := by
  constructor <;> simp [t1, allKids, alookup]
  · intro p cs c hp hcs hc
    subst hcs
    simp at hc
    subst hc
    simp
  · intro p cs c hp hcs hc
    subst hp
    subst hcs
    simp at hc
    subst hc
    simp
  · exact ⟨0, [1], ⟨rfl, rfl⟩, by simp⟩

theorem reach_t0_1 : Reachable t0 (execMark (initExec t0) 0) :=
  Relation.ReflTransGen.tail Relation.ReflTransGen.refl
    (Step.mark (initExec t0) 0 (by decide) (by decide))

theorem reach_t1_1 : Reachable t1 (execMark (initExec t1) 1) :=
  Relation.ReflTransGen.tail Relation.ReflTransGen.refl
    (Step.mark (initExec t1) 1 (by decide) (by decide))

/-! ### The claims -/

/-- Claim C1: for every tree satisfying the section-3 invariants, in any
run in which every dispatched directory is eventually passed to
`mark_complete` exactly once (a terminal state of the worker
discipline), the multiset of directories sent into the work channel --
the leaves seeded by `Broker::new` plus the parents enqueued by
`mark_complete` -- is a permutation of the full directory set: every
directory is enqueued exactly once, no duplicates, no omissions. -/
theorem C1_dispatched_exactly_once (t : DirectoryTree) (r : Dir) (depth : Dir → Nat)
    (wf : WF t r depth) (s : ExecState) (hs : Reachable t s)
    (hterm : ∀ x ∈ s.dispatched, x ∈ s.done) :
    s.dispatched.Perm t.dirs := by
  have hinv := inv_reachable t r depth wf s hs
  exact perm_of_set_eq _ _ hinv.disp_nodup wf.dirs_nodup hinv.disp_sub
    (terminal_all_dispatched t r depth wf s hinv hterm)

theorem C1_witness : (execMark (initExec t0) 0).dispatched.Perm t0.dirs :=
  C1_dispatched_exactly_once t0 0 (fun _ => 0) wf_t0 _ reach_t0_1 (by decide)

/-- Claim C2: in every reachable state of the broker, a directory that
has children is dispatched only if all of its children have already
been passed to `mark_complete`; and at construction only the initial
leaves are enqueued. -/
theorem C2_children_complete_before_dispatch (t : DirectoryTree) (r : Dir)
    (depth : Dir → Nat) (wf : WF t r depth) (s : ExecState) (hs : Reachable t s) :
    (initExec t).dispatched = t.leaves ∧
    ∀ p cs, alookup t.children p = some cs → p ∈ s.dispatched → ∀ c ∈ cs, c ∈ s.done := by
  have hinv := inv_reachable t r depth wf s hs
  refine ⟨brokerNew_dispatch t, ?_⟩
  intro p cs hcs hp c hc
  exact (hinv.disp_iff p (wf.keys_sub p cs (mem_of_alookup _ _ _ hcs))).mp hp cs hcs c hc

theorem C2_witness : 1 ∈ (execMark (initExec t1) 1).done :=
  (C2_children_complete_before_dispatch t1 0 (fun x => x) wf_t1 _ reach_t1_1).2
    0 [1] (by decide) (by decide) 1 (by decide)

/-- Claim C3: every `mark_complete` call increments the completed
counter by exactly one (so `completed_count` is monotonically
non-decreasing along a run, and the counter hits any given value at
most once); and in a reachable state where the counter has reached
`total_count`, the work channel is closed and no further scheduler step
(hence no further dispatch) is possible. -/
theorem C3_completion_closes_channel (t : DirectoryTree) (r : Dir) (depth : Dir → Nat)
    (wf : WF t r depth) (s : ExecState) (hs : Reachable t s) :
    (∀ (b : Broker) (d2 : Dir),
      (markComplete b d2).1.completed_count = b.completed_count + 1) ∧
    (s.broker.completed_count = s.broker.total_count →
      s.broker.work_tx_open = false ∧ ∀ s2, ¬ Step s s2) := by
  have hinv := inv_reachable t r depth wf s hs
  constructor
  · intro b d2
    exact markComplete_completed b d2
  · intro hdone
    have hcomp := hinv.completed_eq
    have htot := hinv.total_eq
    have hn : s.done.length = t.dirs.length := by
      unfold Broker.completed_count Broker.total_count at hdone
      omega
    have hfull : ∀ x ∈ t.dirs, x ∈ s.done :=
      nodup_subset_full s.done t.dirs hinv.done_nodup wf.dirs_nodup
        (fun x hx => hinv.disp_sub x (hinv.done_sub x hx)) (by omega)
    constructor
    · cases hb : s.broker.work_tx_open with
      | false => rfl
      | true =>
        have := hinv.open_eq.mp hb
        omega
    · intro s2 hstep
      cases hstep with
      | mark d2 hd2 hnd2 =>
        exact hnd2 (hfull d2 (hinv.disp_sub d2 hd2))

theorem C3_witness :
    (execMark (initExec t0) 0).broker.work_tx_open = false :=
  ((C3_completion_closes_channel t0 0 (fun _ => 0) wf_t0 _ reach_t0_1).2 (by decide)).1

/-- Claim C4: when the directory-removal primitive fails, a worker
iteration leaves the run state unchanged and reports nothing to the
broker; consequently, in any reachable state in which a given leaf has
never been reported complete, the completed counter is still short of
the total, the channel is still open, and no ancestor of that leaf has
ever been dispatched. -/
theorem C4_removal_failure_stalls_branch (t : DirectoryTree) (r : Dir)
    (depth : Dir → Nat) (wf : WF t r depth) (s : ExecState) (hs : Reachable t s)
    (l : Dir) (hleaf : l ∈ t.leaves) (hnotdone : l ∉ s.done) :
    (∀ (s0 : ExecState) (d : Dir) (enumOk : Bool) (entries : List FsEntry),
      (workerIteration s0 d enumOk entries false).1 = s0 ∧
      (workerIteration s0 d enumOk entries false).2.reported = false) ∧
    s.broker.completed_count < s.broker.total_count ∧
    s.broker.work_tx_open = true ∧
    ∀ a, Anc t a l → a ∉ s.dispatched := by
  have hinv := inv_reachable t r depth wf s hs
  have hlS : l ∈ t.dirs := wf.leaves_sub l hleaf
  have hlt : s.done.length < t.dirs.length := by
    have hnodup : (s.done ++ [l]).Nodup := nodup_snoc s.done l hinv.done_nodup hnotdone
    have hsub : ∀ x ∈ s.done ++ [l], x ∈ t.dirs := by
      intro x hx
      rcases List.mem_append.mp hx with h | h
      · exact hinv.disp_sub x (hinv.done_sub x h)
      · rw [List.mem_singleton] at h
        exact h ▸ hlS
    have := nodup_length_le _ _ hnodup hsub
    simp only [List.length_append, List.length_singleton] at this
    omega
  refine ⟨?_, ?_, hinv.open_eq.mpr hlt, ?_⟩
  · intro s0 d enumOk entries
    constructor <;> rfl
  · unfold Broker.completed_count Broker.total_count
    have := hinv.completed_eq
    have := hinv.total_eq
    omega
  · intro a hanc
    exact (anc_stalled t r depth wf s hinv a l hanc hnotdone).1

theorem C4_witness :
    0 ∉ (initExec t1).dispatched ∧
    (initExec t1).broker.completed_count < (initExec t1).broker.total_count :=
  ⟨(C4_removal_failure_stalls_branch t1 0 (fun x => x) wf_t1 _
      Relation.ReflTransGen.refl 1 (by decide) (by decide)).2.2.2
      0 (Anc.parent 0 [1] 1 (by decide) (by decide)),
   (C4_removal_failure_stalls_branch t1 0 (fun x => x) wf_t1 _
      Relation.ReflTransGen.refl 1 (by decide) (by decide)).2.1⟩

/-- Claim C5: the spec requires the safety validation gate
(`check_path_safety`: protected-system-directory and
current-working-directory checks) to be invoked exactly once on the
requested root path before tree discovery.  In the code, `main` never
calls into `safety.rs` at all: on every control path (path missing,
not a directory, scan failure, dry run, or a full deletion run) the
phase trace of `main` contains zero occurrences of the safety gate,
not one.  The safety check itself exists (and classifies a system
directory as non-overridable), but it is dead code. -/
theorem C5_safety_gate_never_invoked :
    (∀ pathExists pathIsDir dryRun scanOk : Bool,
      (mainPhases pathExists pathIsDir dryRun scanOk).count MainPhase.safetyGate = 0) ∧
    check_path_safety true false = SafetyCheck.dangerous false := by
  constructor
  · decide
  · rfl

/-- Claim C6 (amended): calling `mark_complete` with a directory that
has no entry in the parent map (an unknown directory, or the root)
does not panic, surfaces no error, dispatches nothing, and leaves the
pending-count map and the parent map unchanged; however -- contrary to
the original claim -- it is not a complete no-op on observable state:
it always increments the completed counter, and if that increment
reaches the total it closes the work channel. -/
theorem C6_no_parent_noop_except_counter (b : Broker) (d : Dir)
    (h : alookup b.parent_map d = none) :
    (markComplete b d).1.child_counts = b.child_counts ∧
    (markComplete b d).1.parent_map = b.parent_map ∧
    (markComplete b d).2 = [] ∧
    (markComplete b d).1.completed = b.completed + 1 ∧
    (markComplete b d).1.work_tx_open =
      (if b.completed + 1 = b.total_dirs then false else b.work_tx_open) := by
  by_cases hc : b.completed + 1 = b.total_dirs
  · simp [markComplete, hc]
  · simp [markComplete, hc, h]

theorem C6_witness :
    (markComplete (brokerNew t1).1 99).2 = [] ∧
    (markComplete (brokerNew t1).1 99).1.child_counts = (brokerNew t1).1.child_counts :=
  ⟨(C6_no_parent_noop_except_counter (brokerNew t1).1 99 (by decide)).2.2.1,
   (C6_no_parent_noop_except_counter (brokerNew t1).1 99 (by decide)).1⟩

/-- Claim C6 (counterexample to the original wording): the original
claim says such a call "leaves the broker's observable state
(completed counter, pending counts, channel) unchanged"; but on the
two-directory tree `t1`, `mark_complete` with the unknown directory
`99` changes `completed_count` from 0 to 1. -/
theorem C6_counterexample :
    (markComplete (brokerNew t1).1 99).1.completed_count ≠
      (brokerNew t1).1.completed_count := by
  decide

/-- Claim C7: after `Broker::new` on a well-formed tree,
`pending_count` equals the number of directories with at least one
child, i.e. `directories.len() - leaves.len()`; it never increases
under any scheduler step; and it is zero in any reachable state where
the completed counter has reached the total. -/
theorem C7_pending_count (t : DirectoryTree) (r : Dir) (depth : Dir → Nat)
    (wf : WF t r depth) :
    (initExec t).broker.pending_count = t.dirs.length - t.leaves.length ∧
    (∀ s s2 : ExecState, Step s s2 → s2.broker.pending_count ≤ s.broker.pending_count) ∧
    (∀ s : ExecState, Reachable t s →
      s.broker.completed_count = s.broker.total_count → s.broker.pending_count = 0) := by
  refine ⟨?_, ?_, ?_⟩
  · show (buildCounts t.children).length = t.dirs.length - t.leaves.length
    have hkeys : ((buildCounts t.children).map Prod.fst).length =
        (t.children.map Prod.fst).length := by
      rw [keys_buildCounts t.children wf.keys_nodup]
    simp only [List.length_map] at hkeys
    have hpart := wf_count_partition t r depth wf
    omega
  · intro s s2 hstep
    cases hstep with
    | mark d hd hnd => exact markComplete_pending_le s.broker d
  · intro s hs hdone
    have hinv := inv_reachable t r depth wf s hs
    have hcomp := hinv.completed_eq
    have htot := hinv.total_eq
    have hn : s.done.length = t.dirs.length := by
      unfold Broker.completed_count Broker.total_count at hdone
      omega
    have hfull : ∀ x ∈ t.dirs, x ∈ s.done :=
      nodup_subset_full s.done t.dirs hinv.done_nodup wf.dirs_nodup
        (fun x hx => hinv.disp_sub x (hinv.done_sub x hx)) (by omega)
    have hnone : ∀ p, alookup s.broker.child_counts p = none := by
      intro p
      rw [hinv.counts_eq p]
      cases hc : alookup t.children p with
      | none => exact pendOf_none_key t s.done p hc
      | some cs =>
        rw [pendOf_some_key t s.done p cs hc]
        have hall : ∀ c ∈ cs, c ∈ s.done := fun c hcc =>
          hfull c (wf.child_sub p cs c (mem_of_alookup _ _ _ hc) hcc)
        rw [if_pos ((pendList_len_zero cs s.done).mpr hall)]
    show s.broker.child_counts.length = 0
    rw [eq_nil_of_alookup_none s.broker.child_counts hnone]
    rfl

theorem C7_witness :
    (initExec t1).broker.pending_count = t1.dirs.length - t1.leaves.length :=
  (C7_pending_count t1 0 (fun x => x) wf_t1).1

/-- Claim C8: broker construction is a pure function of the tree --
running `Broker::new` twice on the same `DirectoryTree` produces the
same broker and seeds the channel with exactly the directories in
`leaves`, in the order supplied, so the initial dispatch sequences of
the two runs are identical. -/
theorem C8_construction_deterministic (t t2 : DirectoryTree) (h : t2 = t) :
    (brokerNew t2).2 = (brokerNew t).2 ∧ (brokerNew t).2 = t.leaves :=
  ⟨h ▸ rfl, brokerNew_dispatch t⟩

theorem C8_witness :
    (brokerNew t1).2 = (brokerNew t1).2 ∧ (brokerNew t1).2 = t1.leaves :=
  C8_construction_deterministic t1 t1 rfl

/-- Claim C9: while clearing a directory's contents, the worker
attempts to delete every non-directory entry regardless of the
per-entry success flags (an individual failure is only logged), and it
then proceeds to attempt the directory removal itself in every case. -/
theorem C9_best_effort_contents_clearing :
    ∀ (s : ExecState) (d : Dir) (entries : List FsEntry) (removeOk : Bool),
    (workerIteration s d true entries removeOk).2.fileAttempts =
      entries.filter (fun e => !e.isDir) ∧
    (workerIteration s d true entries removeOk).2.removalAttempted = true := by
  intro s d entries removeOk
  cases removeOk <;> simp [workerIteration, delete_files_in_dir]

/-- Claim C10: in every state reachable by an arbitrary sequence of
`mark_complete` calls (even ones violating the once-per-dispatch
discipline), every count stored in `child_counts` is at least 1, so
the `usize` decrement `*count -= 1` never underflows -- the entry is
removed the moment a count reaches zero; moreover a completion whose
parent no longer has a `child_counts` entry leaves the map unchanged
(it is silently ignored). -/
theorem C10_no_underflow (t : DirectoryTree) (r : Dir) (depth : Dir → Nat)
    (wf : WF t r depth) (s : ExecState) (hs : ReachableAny t s) :
    (∀ pk ∈ s.broker.child_counts, 1 ≤ pk.2) ∧
    (∀ (b : Broker) (d2 p : Dir), alookup b.parent_map d2 = some p →
      alookup b.child_counts p = none →
      (markComplete b d2).1.child_counts = b.child_counts) := by
  constructor
  · induction hs with
    | refl =>
      intro pk hpk
      have hlook : alookup (buildCounts t.children) pk.1 = some pk.2 := by
        apply alookup_eq_some_of_mem
        · rw [keys_buildCounts t.children wf.keys_nodup]
          exact wf.keys_nodup
        · exact hpk
      rw [alookup_buildCounts t.children pk.1 wf.keys_nodup] at hlook
      cases hc : alookup t.children pk.1 with
      | none => rw [hc] at hlook; exact Option.noConfusion hlook
      | some cs =>
        rw [hc] at hlook
        have hcs := wf.child_ne pk.1 cs (mem_of_alookup _ _ _ hc)
        have : cs.length = pk.2 := Option.some.inj hlook
        have hpos : cs.length ≠ 0 := fun hz => hcs (List.length_eq_zero.mp hz)
        omega
    | tail _ hbc ih =>
      cases hbc with
      | mark d => exact markComplete_vals_pos _ d ih
  · intro b d2 p hp hcount
    by_cases hc : b.completed + 1 = b.total_dirs
    · simp [markComplete, hc]
    · simp [markComplete, hc, hp, hcount]

theorem C10_witness : 1 ≤ ((0, 1) : Dir × Nat).2 :=
  (C10_no_underflow t1 0 (fun x => x) wf_t1 (initExec t1)
    Relation.ReflTransGen.refl).1 (0, 1) (by decide)

end Rmbrr
